import Mathlib

/-! Ear-training exercise: scale derivation, sequence generation, playback and answer
verification. A shallow embedding of `src/app.js`.

* A JavaScript value that is either a string or `undefined` is an `Option String`
  (`none` is `undefined`).
* An object literal used as a lookup table is an association list of its own properties;
  properties inherited from `Object.prototype` are outside the model (no key the program
  passes names one that would change a result).
* A function that can throw a `TypeError` returns an `Option` (`none` is the throw).
* Numbers that are integers in every run of the program are `Nat` or `Int`. The value of
  `Math.random()`, its product with the length of the scale, and a duration are doubles:
  they are rationals here, and each arithmetic operation on them rounds its exact result
  to the nearest double, ties to even (`roundDouble`). Results beyond the largest finite
  double do not occur and are outside the model.
* Timers run on a virtual clock: a callback fires exactly at its due time, the earliest
  due first, and in order of creation among equal due times.
* An event handler runs to its end before the next event; of an asynchronous handler the
  part after its `await` is the event.
* Drawing of notation and the texts written to the page are left out.
-/

namespace EarTraining

/-! ## JavaScript helpers -/

/-- A spelled note as the program holds it: a string, or `undefined`. -/
abbrev Note := Option String

/-- Array read `xs[i]`: `undefined` when `i` is not an index of `xs`. -/
def jsIndex {α : Type} (xs : List α) (i : Int) : Option α :=
  if i < 0 then none else xs.get? i.toNat

/-- The call `xs.indexOf(x)`: the first index holding `x`, or `-1`. -/
def jsIndexOf (xs : List String) (x : String) : Int :=
  if x ∈ xs then (xs.indexOf x : Int) else -1

/-- The expression `a || b` on values that are strings or `undefined`: the empty string and
`undefined` are falsy. -/
def jsOr (a b : Note) : Note :=
  match a with
  | some s => if s = "" then b else some s
  | none => b

/-- Property read `table[key]` on an object literal; reading with the key `undefined`
looks the property name "undefined" up. -/
def jsLookup {β : Type} (table : List (String × β)) (key : Note) : Option β :=
  table.lookup (key.getD "undefined")

/-! ## Double-precision arithmetic -/

/-- The nearest integer, the even one of the two when both are equally near. -/
def roundHalfEven (y : ℚ) : Int :=
  let f := Rat.floor y
  let d := y - (f : ℚ)
  if d < 1 / 2 then f
  else if 1 / 2 < d then f + 1
  else if f % 2 = 0 then f else f + 1

/-- Exponent of the spacing between neighbouring doubles at `x`: with
`2^e ≤ |x| < 2^(e+1)` the spacing is `2^(e-52)`, and `2^-1074` in the subnormal range. -/
def quantumExp (x : ℚ) : Int :=
  max (Int.log 2 |x| - 52) (-1074)

/-- The double nearest to the rational `x` (IEEE 754 binary64, round to nearest, ties to
even), for `x` within the finite range. -/
def roundDouble (x : ℚ) : ℚ :=
  (roundHalfEven (x / (2 : ℚ) ^ quantumExp x) : ℚ) * (2 : ℚ) ^ quantumExp x

/-- The rational `x` is the value of a double. -/
def IsDouble (x : ℚ) : Prop :=
  roundDouble x = x

instance (x : ℚ) : Decidable (IsDouble x) := by
  unfold IsDouble
  infer_instance

/-! ## Tables (app.js 18-36, 115-121) -/

def noteNames : List String :=
  ["C", "C#", "D", "D#", "E", "F", "F#", "G", "G#", "A", "A#", "B"]

def preferredKeyNames : List (String × String) :=
  [("C#", "Db"), ("D#", "Eb"), ("F#", "Gb"), ("G#", "Ab"), ("A#", "Bb")]

def enharmonicMap : List (String × String) :=
  [("C#", "Db"), ("D#", "Eb"), ("F#", "Gb"), ("G#", "Ab"), ("A#", "Bb"),
   ("E#", "F"), ("B#", "C"), ("Fb", "E"), ("Cb", "B")]

def defaultOctave : Nat := 4

def scales : List (String × List Int) :=
  [("chromatic", [0, 1, 2, 3, 4, 5, 6, 7, 8, 9, 10, 11]),
   ("major", [0, 2, 4, 5, 7, 9, 11]),
   ("minor", [0, 2, 3, 5, 7, 8, 10]),
   ("pentatonic", [0, 2, 4, 7, 9]),
   ("blues", [0, 3, 5, 6, 7, 10])]

/-- The five scale types: the property names of `scales`. -/
def scaleTypes : List String := scales.map Prod.fst

/-! ## Scale engine (app.js 124-142) -/

/-- Source: `shouldUseFlats` (app.js 134-137). -/
def shouldUseFlats (key : String) : Bool :=
  let flatKeys : List String := ["F", "Bb", "Eb", "Ab", "Db", "Gb", "Cb"]
  flatKeys.contains key ||
    (match jsLookup preferredKeyNames (some key) with
     | some name => flatKeys.contains name
     | none => false)

/-- Source: `getEnharmonicEquivalent` (app.js 140-142). -/
def getEnharmonicEquivalent (note : Note) (useFlats : Bool) : Note :=
  if useFlats then jsOr (jsLookup enharmonicMap note) note else note

/-- Source: `getScaleNotes` (app.js 124-131). The result is `none` when `scales[scale]` is
`undefined`, where the call `scaleIntervals.map` throws. The operator `%` of JavaScript
truncates towards zero. -/
def getScaleNotes (key scale : String) : Option (List Note) :=
  let keyIndex : Int := jsIndexOf noteNames key
  match jsLookup scales (some scale) with
  | none => none
  | some scaleIntervals =>
    let scaleNotes : List Note :=
      scaleIntervals.map fun interval => jsIndex noteNames (Int.tmod (keyIndex + interval) 12)
    let useFlats := shouldUseFlats key
    some (scaleNotes.map fun note => getEnharmonicEquivalent note useFlats)

/-! ## Note parsing (app.js 172-182) -/

/-- The record that `parseNote` returns. -/
structure ParsedNote where
  baseName : String
  accidental : String
  deriving DecidableEq, Repr

/-- Source: `parseNote` (app.js 172-182). Upper-casing is that of ASCII letters, the only
letters a note name of this program holds. -/
def parseNote (note : String) : ParsedNote :=
  if note.length > 1 then
    { baseName := String.mk ((note.data.take 1).map Char.toUpper),
      accidental := String.mk (note.data.drop 1) }
  else
    { baseName := String.mk (note.data.map Char.toUpper), accidental := "" }

/-! ## Answer verification (app.js 304-310) -/

/-- The `for` loop of `checkSequence`: `k` iterations remain, the next index is `i`. -/
def checkSequenceLoop (userSequence generatedSequence : List Note) : Nat → Nat → Bool
  | 0, _ => true
  | k + 1, i =>
    if (jsIndex userSequence i).join ≠ (jsIndex generatedSequence i).join then false
    else checkSequenceLoop userSequence generatedSequence k (i + 1)

/-- Source: `checkSequence` (app.js 304-310), with the two global lists as arguments. -/
def checkSequence (userSequence generatedSequence : List Note) : Bool :=
  if userSequence.length ≠ generatedSequence.length then false
  else checkSequenceLoop userSequence generatedSequence generatedSequence.length 0

/-! ## Reference reading of a spelled name -/

/-- Semitone of a natural letter name. -/
def letterSemitone (c : Char) : Option Int :=
  if c = 'C' then some 0 else if c = 'D' then some 2 else if c = 'E' then some 4
  else if c = 'F' then some 5 else if c = 'G' then some 7 else if c = 'A' then some 9
  else if c = 'B' then some 11 else none

/-- Semitones that an accidental adds: one up per sharp sign, one down per flat sign. -/
def accidentalShift : List Char → Option Int
  | [] => some 0
  | c :: rest =>
    if c = '#' then (accidentalShift rest).map (· + 1)
    else if c = 'b' then (accidentalShift rest).map (· - 1)
    else none

/-- Pitch class (0 to 11) that a spelled note name denotes, by the usual reading of a base
letter followed by accidentals. This is the reference against which the spellings the
program returns are compared; the program itself never computes it. -/
def spelledPitchClass (note : Note) : Option Int :=
  match note with
  | none => none
  | some s =>
    match s.data with
    | [] => none
    | c :: rest =>
      match letterSemitone c, accidentalShift rest with
      | some base, some shift => some ((base + shift) % 12)
      | _, _ => none

/-- Accidental of a note as `parseNote` reads it; `undefined` has none. -/
def accidentalOf (note : Note) : Option String :=
  note.map fun s => (parseNote s).accidental

/-! ## Session state -/

/-- A callback handed to `setTimeout`. -/
inductive Callback where
  /-- The function `playGeneratedSequence` itself (app.js 168). -/
  | autoPlay : Callback
  /-- The closure of app.js 224-233, which captured `note`, `index` and `tempoMs`. -/
  | noteOn (note : Note) (index : Nat) (tempoMs : Nat) : Callback
  /-- The closure of app.js 227-231, which ends the playback. -/
  | finish : Callback
  deriving DecidableEq, Repr

/-- A pending timer: the virtual time at which it is due and its callback. -/
structure Timer where
  due : Nat
  cb : Callback
  deriving DecidableEq, Repr

/-- One call of `synth.triggerAttackRelease`: when it happened, the note name with its
octave, and the duration in seconds. -/
structure Sound where
  time : Nat
  fullNote : String
  seconds : ℚ
  deriving DecidableEq, Repr

/-- What the page supplies before any script runs: the initial values of the controls
that the script reads, and the initial `disabled` flags of the four buttons it toggles. -/
structure Page where
  scaleSelect : String
  sequenceLength : Option Int
  tempoSelect : String
  playDisabled : Bool
  replayDisabled : Bool
  submitDisabled : Bool
  clearDisabled : Bool

/-- The global variables of app.js 37-43, the controls the script reads or writes, the
virtual clock with the pending timers, and the sounds produced so far.
`sequenceLength` is the value of `parseInt(sequenceLengthInput.value)`: an integer, or
`none` for `NaN`. `userButtons` lists the notes of the buttons that `updateUserButtons`
created. -/
structure Session where
  keySelect : String
  scaleSelect : String
  sequenceLength : Option Int
  tempoSelect : String
  generatedSequence : List Note
  userSequence : List Note
  currentKey : String
  currentScale : String
  isPlaying : Bool
  score : Nat
  playDisabled : Bool
  replayDisabled : Bool
  submitDisabled : Bool
  clearDisabled : Bool
  userButtons : List Note
  now : Nat
  timers : List Timer
  audio : List Sound

/-- The call `setTimeout(cb, delay)`. -/
def setTimeout (s : Session) (cb : Callback) (delay : Nat) : Session :=
  { s with timers := s.timers ++ [⟨s.now + delay, cb⟩] }

/-- Source: `getTempoValue` (app.js 194-197). -/
def getTempoValue (tempoSelect : String) : Nat :=
  let tempos : List (String × Nat) := [("slow", 1000), ("medium", 600), ("fast", 350)]
  match jsLookup tempos (some tempoSelect) with
  | some ms => if ms = 0 then 600 else ms
  | none => 600

/-- The name handed to the synthesiser: `baseName + accidental + defaultOctave`. -/
def fullNoteOf (note : String) : String :=
  (parseNote note).baseName ++ (parseNote note).accidental ++ toString defaultOctave

/-- Source: `playNote` (app.js 200-211). On `undefined` the read `note.length` throws
inside the `try`, and no sound is produced. The duration handed to the synthesiser is the
double `duration / 1000`. -/
def playNote (s : Session) (note : Note) (duration : ℚ) : Session :=
  match note with
  | none => s
  | some str => { s with audio := s.audio ++ [⟨s.now, fullNoteOf str, roundDouble (duration / 1000)⟩] }

/-- The `forEach` of app.js 223-234: one timer per note, in order, the first index being
`index`. -/
def scheduleNotes (now tempoMs : Nat) : List Note → Nat → List Timer
  | [], _ => []
  | note :: rest, index =>
    ⟨now + index * tempoMs, Callback.noteOn note index tempoMs⟩ ::
      scheduleNotes now tempoMs rest (index + 1)

/-- Source: `playGeneratedSequence` (app.js 214-235). -/
def playGeneratedSequence (s : Session) : Session :=
  if s.generatedSequence.length = 0 then s
  else if s.isPlaying then s
  else
    let tempoMs := getTempoValue s.tempoSelect
    { s with
      isPlaying := true
      playDisabled := true
      replayDisabled := true
      timers := s.timers ++ scheduleNotes s.now tempoMs s.generatedSequence 0 }

/-- Source: `updateUserButtons` (app.js 281-301). When `getScaleNotes` throws, the buttons
have already been removed. -/
def updateUserButtons (s : Session) : Session :=
  match getScaleNotes s.currentKey s.currentScale with
  | none => { s with userButtons := [] }
  | some scaleNotes => { s with userButtons := scaleNotes }

/-- Number of iterations of `for (let i = 0; i < length; i++)`: none when `length` is
`NaN` or not positive. -/
def loopCount (length : Option Int) : Nat :=
  match length with
  | none => 0
  | some n => n.toNat

/-- The loop of app.js 151-154: `k` iterations remain, the loop variable is `i`, and
`random i` is the value `Math.random()` returns in iteration `i`. The product
`Math.random() * scaleNotes.length` is a double, rounded before `Math.floor` is taken. -/
def generateLoop (scaleNotes : List Note) (random : Nat → ℚ) :
    Nat → Nat → List Note → List Note
  | 0, _, generatedSequence => generatedSequence
  | k + 1, i, generatedSequence =>
    let randomNote : Note :=
      (jsIndex scaleNotes
        (Rat.floor (roundDouble (random i * (scaleNotes.length : ℚ))))).join
    generateLoop scaleNotes random k (i + 1) (generatedSequence ++ [randomNote])

/-- Source: `generateNewSequence` (app.js 145-169). When `getScaleNotes` throws, only the
two assignments before it have happened. -/
def generateNewSequence (s : Session) (random : Nat → ℚ) : Session :=
  let s1 := { s with currentKey := s.keySelect, currentScale := s.scaleSelect }
  match getScaleNotes s1.currentKey s1.currentScale with
  | none => s1
  | some scaleNotes =>
    let s2 := { s1 with
      generatedSequence := generateLoop scaleNotes random (loopCount s1.sequenceLength) 0 []
      userSequence := []
      playDisabled := false
      replayDisabled := false
      submitDisabled := true
      clearDisabled := true }
    setTimeout s2 Callback.autoPlay 500

/-- Source: `updateFeedback` (app.js 313-320); the texts written to the page are left out. -/
def updateFeedback (s : Session) (isCorrect : Bool) : Session :=
  if isCorrect then { s with score := s.score + 10 } else s

/-- Click handler of the submit button (app.js 88-95). -/
def submitClick (s : Session) : Session :=
  let correct := checkSequence s.userSequence s.generatedSequence
  updateFeedback s correct

/-- Click handler of the clear button (app.js 97-101). -/
def clearClick (s : Session) : Session :=
  { s with userSequence := [] }

/-- Click handler of a note button (app.js 288-298). -/
def noteButtonClick (s : Session) (note : Note) : Session :=
  let s1 := { s with userSequence := s.userSequence ++ [note] }
  let s2 := playNote s1 note 300
  { s2 with submitDisabled := false, clearDisabled := false }

/-- The double `tempoMs * 0.8`, where `0.8` is the double nearest to 4/5. -/
def noteDuration (tempoMs : Nat) : ℚ :=
  roundDouble ((tempoMs : ℚ) * roundDouble 0.8)

/-- Running a timer callback. The closure `noteOn` reads the global
`generatedSequence` when it runs. -/
def fire (s : Session) : Callback → Session
  | Callback.autoPlay => playGeneratedSequence s
  | Callback.noteOn note index tempoMs =>
    let s1 := playNote s note (noteDuration tempoMs)
    if (index : Int) = (s1.generatedSequence.length : Int) - 1 then
      setTimeout s1 Callback.finish tempoMs
    else s1
  | Callback.finish =>
    { s with isPlaying := false, playDisabled := false, replayDisabled := false }

/-- The timer that fires next, and the timers that stay pending. -/
def popTimer : List Timer → Option (Timer × List Timer)
  | [] => none
  | t :: ts =>
    match popTimer ts with
    | none => some (t, [])
    | some (u, rest) => if u.due < t.due then some (u, t :: rest) else some (t, ts)

/-- What can happen to a session. A click on a disabled button reaches no handler; a
`select` only offers its options. -/
inductive Event where
  | selectKey (key : String) : Event
  | selectScale (scale : String) : Event
  | inputLength (length : Option Int) : Event
  | selectTempo (tempo : String) : Event
  /-- Click on the generate button; `random i` is the `i`-th value of `Math.random()`. -/
  | generate (random : Nat → ℚ) : Event
  | play : Event
  | replay : Event
  /-- Click on the `i`-th note button. -/
  | noteClick (i : Nat) : Event
  | submit : Event
  | clear : Event
  /-- The next pending timer fires, the clock moving to its due time. -/
  | timer : Event
  /-- Time passes, up to the due time of the next pending timer. -/
  | wait (ms : Nat) : Event

/-- One event. -/
def step (s : Session) : Event → Session
  | Event.selectKey key =>
    if key ∈ noteNames then
      updateUserButtons { s with keySelect := key, currentKey := key }
    else s
  | Event.selectScale scale =>
    updateUserButtons { s with scaleSelect := scale, currentScale := scale }
  | Event.inputLength length => { s with sequenceLength := length }
  | Event.selectTempo tempo => { s with tempoSelect := tempo }
  | Event.generate random => generateNewSequence s random
  | Event.play => if s.playDisabled then s else playGeneratedSequence s
  | Event.replay => if s.replayDisabled then s else playGeneratedSequence s
  | Event.noteClick i =>
    match s.userButtons.get? i with
    | none => s
    | some note => noteButtonClick s note
  | Event.submit => if s.submitDisabled then s else submitClick s
  | Event.clear => if s.clearDisabled then s else clearClick s
  | Event.timer =>
    match popTimer s.timers with
    | none => s
    | some (t, rest) => fire { s with now := max s.now t.due, timers := rest } t.cb
  | Event.wait ms =>
    match popTimer s.timers with
    | none => { s with now := s.now + ms }
    | some (t, _) => { s with now := max s.now (min (s.now + ms) t.due) }

/-- A run of events, oldest first. -/
def run (s : Session) (events : List Event) : Session :=
  events.foldl step s

/-- Source: `initApp` (app.js 57-61) on a freshly loaded page: `populateKeys` selects the
key C, and `updateUserButtons` builds the buttons of C major. -/
def initApp (page : Page) : Session :=
  updateUserButtons
    { keySelect := "C"
      scaleSelect := page.scaleSelect
      sequenceLength := page.sequenceLength
      tempoSelect := page.tempoSelect
      generatedSequence := []
      userSequence := []
      currentKey := "C"
      currentScale := "major"
      isPlaying := false
      score := 0
      playDisabled := page.playDisabled
      replayDisabled := page.replayDisabled
      submitDisabled := page.submitDisabled
      clearDisabled := page.clearDisabled
      userButtons := []
      now := 0
      timers := []
      audio := [] }

/-! ## Reference definitions and example sessions -/

/-- The semitone index of a key (`noteNames.indexOf(key)`). -/
def keyIndexOf (key : String) : Int := jsIndexOf noteNames key

/-- The note `note` spells pitch class `pc` for a key with spelling preference `useFlats`:
it denotes that pitch class, and it is the flat equivalent that `enharmonicMap` gives for
the table name of `pc` when the key is flat-preferred and the table name has one, and the
table name itself in every other case. -/
def SpellsPitchClass (useFlats : Bool) (pc : Int) (note : Note) : Prop :=
  spelledPitchClass note = some pc ∧
    note =
      (if useFlats = true then
        match jsLookup enharmonicMap (jsIndex noteNames pc) with
        | some flat => some flat
        | none => jsIndex noteNames pc
      else jsIndex noteNames pc)

instance (useFlats : Bool) (pc : Int) (note : Note) :
    Decidable (SpellsPitchClass useFlats pc note) := by
  unfold SpellsPitchClass
  infer_instance

/-- A page as the examples load it: C major preselected, three notes, fast tempo, and
the four toggled buttons disabled until a sequence exists. -/
def demoPage : Page :=
  { scaleSelect := "major"
    sequenceLength := some 3
    tempoSelect := "fast"
    playDisabled := true
    replayDisabled := true
    submitDisabled := true
    clearDisabled := true }

/-- A sequence of three notes is generated and its automatic playback starts at 500 ms. -/
def startOfRun : List Event :=
  [Event.generate fun _ => 0, Event.timer]

/-- After the first note of that playback, at 600 ms, the user asks for five notes and
generates again; then every pending timer fires and a further second passes. -/
def regenerateLonger : List Event :=
  startOfRun ++
    [Event.timer, Event.wait 100, Event.inputLength (some 5), Event.generate fun _ => 1 / 2,
     Event.timer, Event.timer, Event.timer, Event.wait 1000]

/-- A session that can never leave the playing state: the flag is set and no pending
timer is a note or the end of a playback. -/
def Stuck (s : Session) : Prop :=
  s.isPlaying = true ∧ ∀ t ∈ s.timers, t.cb = Callback.autoPlay

instance (s : Session) : Decidable (Stuck s) := by
  unfold Stuck
  infer_instance

/-- Five notes are generated and their automatic playback starts at 500 ms; after its
first note, at 800 ms, the user asks for two notes and generates again; three timers
fire: the second note (850 ms), the third note (1200 ms) and the end of playback that
the second note scheduled (1200 ms). -/
def regenerateShorter : List Event :=
  [Event.inputLength (some 5), Event.generate fun _ => 0, Event.timer, Event.timer,
   Event.wait 300, Event.inputLength (some 2), Event.generate fun _ => 1 / 2,
   Event.timer, Event.timer, Event.timer]

/-- The sounds a playback is expected to produce for the notes `notes`, the first of them
having index `index`: note `i` at `base + i * tempoMs`, for `0.8 * tempoMs` milliseconds. -/
def expectedSounds (base tempoMs : Nat) : List String → Nat → List Sound
  | [], _ => []
  | note :: rest, index =>
    ⟨base + index * tempoMs, fullNoteOf note, roundDouble (noteDuration tempoMs / 1000)⟩ ::
      expectedSounds base tempoMs rest (index + 1)

/-- An idle session with the sequence C, C, C and no pending timer: a sequence was
generated and its automatic playback has run to its end. -/
def idleAfterPlayback : Session :=
  run (initApp demoPage)
    [Event.generate fun _ => 0, Event.timer, Event.timer, Event.timer, Event.timer, Event.timer]

/-- From that idle session: the user clicks replay at 1550 ms; after the first note, at
1600 ms, the user asks for five notes and generates again; then every pending timer fires
and five more seconds pass. -/
def replayThenRegenerate : List Event :=
  [Event.replay, Event.timer, Event.wait 50, Event.inputLength (some 5),
   Event.generate fun _ => 1 / 2, Event.timer, Event.timer, Event.timer, Event.wait 5000]

/-! ## Answer verification is list equality -/

theorem jsIndex_natCast {α : Type} (xs : List α) (i : Nat) :
    jsIndex xs (i : Int) = xs.get? i := by
  simp [jsIndex]

theorem checkSequenceLoop_eq_true (u g : List Note) (k i : Nat) :
    checkSequenceLoop u g k i = true ↔
      ∀ j, i ≤ j → j < i + k → (u.get? j).join = (g.get? j).join := by
  induction k generalizing i with
  | zero =>
    simp only [checkSequenceLoop, true_iff]
    intro j h1 h2
    omega
  | succ k ih =>
    simp only [checkSequenceLoop, jsIndex_natCast, ne_eq, ite_not]
    by_cases h : (u.get? i).join = (g.get? i).join
    · rw [if_pos h, ih]
      constructor
      · intro hall j h1 h2
        rcases Nat.eq_or_lt_of_le h1 with rfl | hlt
        · exact h
        · exact hall j hlt (by omega)
      · intro hall j h1 h2
        exact hall j (by omega) (by omega)
    · rw [if_neg h]
      constructor
      · intro hf
        cases hf
      · intro hall
        exact absurd (hall i (Nat.le_refl i) (by omega)) h

theorem checkSequence_eq_true_iff (u g : List Note) :
    checkSequence u g = true ↔ u = g := by
  unfold checkSequence
  by_cases hlen : u.length = g.length
  · simp only [ne_eq, hlen, not_true_eq_false, if_false, checkSequenceLoop_eq_true]
    constructor
    · intro hall
      apply List.ext_get hlen
      intro n h1 h2
      have h := hall n (Nat.zero_le n) (by omega)
      rw [List.get?_eq_get h1, List.get?_eq_get h2] at h
      simpa using h
    · rintro rfl j _ _
      rfl
  · simp only [ne_eq, hlen, not_false_eq_true, if_true]
    constructor
    · intro hf
      cases hf
    · intro he
      exact absurd (congrArg List.length he) hlen

/-- C1. `checkSequence` answers `true` exactly when the attempt and the generated sequence
are the same list of spelled names: equal length and the same string at every index.
An enharmonic respelling is a different string, so `C#` against `Db` is `false`; the
three examples of the specification evaluate as stated. -/
theorem checkSequence_is_list_equality :
    (∀ attempt sequence : List String,
      (checkSequence (attempt.map some) (sequence.map some) = true ↔
        (attempt.length = sequence.length ∧
          ∀ i, i < sequence.length → attempt.get? i = sequence.get? i)) ∧
      (checkSequence (attempt.map some) (sequence.map some) = true ↔ attempt = sequence)) ∧
    checkSequence [some "C#"] [some "Db"] = false ∧
    checkSequence [some "C", some "E", some "G"] [some "C", some "E", some "G"] = true ∧
    checkSequence [some "C", some "E", some "G"] [some "C", some "E", some "A"] = false ∧
    checkSequence [some "C", some "E"] [some "C", some "E", some "G"] = false := by
  refine ⟨?_, by decide, by decide, by decide, by decide⟩
  intro attempt sequence
  have hinj : attempt.map some = sequence.map some ↔ attempt = sequence :=
    (List.map_injective_iff.mpr (Option.some_injective String)).eq_iff
  have hmain : checkSequence (attempt.map some) (sequence.map some) = true ↔
      attempt = sequence := by
    rw [checkSequence_eq_true_iff, hinj]
  refine ⟨?_, hmain⟩
  rw [hmain]
  constructor
  · rintro rfl
    exact ⟨rfl, fun _ _ => rfl⟩
  · rintro ⟨hlen, hall⟩
    apply List.ext_get? 
    intro n
    by_cases hn : n < sequence.length
    · exact hall n hn
    · rw [List.get?_eq_none.mpr (by omega), List.get?_eq_none.mpr (by omega)]

/-! ## Spelling of the scales -/

set_option maxRecDepth 100000 in
theorem scale_accidentals_table : ∀ key ∈ noteNames, ∀ scale ∈ scaleTypes,
    (getScaleNotes key scale).isSome = true ∧
    ∀ note ∈ (getScaleNotes key scale).getD [],
      if shouldUseFlats key = true then accidentalOf note ∈ [some "", some "b", some "bb"]
      else accidentalOf note ∈ [some "", some "#", some "##"] := by
  decide

set_option maxRecDepth 100000 in
theorem scale_pitch_table : ∀ key ∈ noteNames, ∀ scale ∈ scaleTypes,
    (getScaleNotes key scale).isSome = true ∧
    (jsLookup scales (some scale)).isSome = true ∧
    ((getScaleNotes key scale).getD []).length =
      ((jsLookup scales (some scale)).getD []).length ∧
    ∀ p ∈ ((jsLookup scales (some scale)).getD []).zip ((getScaleNotes key scale).getD []),
      SpellsPitchClass (shouldUseFlats key) ((keyIndexOf key + p.1) % 12) p.2 := by
  decide

/-- C2. For each of the 12 canonical keys and each of the 5 scale types `getScaleNotes`
returns a list of notes whose accidentals are all among none, `b`, `bb` when the key is
flat-preferred, and all among none, `#`, `##` otherwise; so no result mixes sharp and flat
spellings. -/
theorem getScaleNotes_consistent_spelling (key scale : String)
    (hkey : key ∈ noteNames) (hscale : scale ∈ scaleTypes) :
    ∃ notes, getScaleNotes key scale = some notes ∧
      (shouldUseFlats key = true →
        ∀ note ∈ notes, accidentalOf note ∈ [some "", some "b", some "bb"]) ∧
      (shouldUseFlats key = false →
        ∀ note ∈ notes, accidentalOf note ∈ [some "", some "#", some "##"]) ∧
      ((∀ note ∈ notes, accidentalOf note ∈ [some "", some "b", some "bb"]) ∨
        (∀ note ∈ notes, accidentalOf note ∈ [some "", some "#", some "##"])) := by
  obtain ⟨hsome, hall⟩ := scale_accidentals_table key hkey scale hscale
  obtain ⟨notes, hnotes⟩ := Option.isSome_iff_exists.mp hsome
  rw [hnotes] at hall
  simp only [Option.getD_some] at hall
  refine ⟨notes, hnotes, ?_, ?_, ?_⟩
  · intro hf note hn
    have h := hall note hn
    rwa [if_pos hf] at h
  · intro hf note hn
    have h := hall note hn
    rwa [if_neg (by simp [hf])] at h
  · cases hf : shouldUseFlats key
    · right
      intro note hn
      have h := hall note hn
      rwa [if_neg (by simp [hf])] at h
    · left
      intro note hn
      have h := hall note hn
      rwa [if_pos hf] at h

/-- The spelling theorem at the flat-preferred key F with the blues scale. -/
theorem getScaleNotes_consistent_spelling_witness :
    ∃ notes, getScaleNotes "F" "blues" = some notes ∧
      (shouldUseFlats "F" = true →
        ∀ note ∈ notes, accidentalOf note ∈ [some "", some "b", some "bb"]) ∧
      (shouldUseFlats "F" = false →
        ∀ note ∈ notes, accidentalOf note ∈ [some "", some "#", some "##"]) ∧
      ((∀ note ∈ notes, accidentalOf note ∈ [some "", some "b", some "bb"]) ∨
        (∀ note ∈ notes, accidentalOf note ∈ [some "", some "#", some "##"])) :=
  getScaleNotes_consistent_spelling "F" "blues" (by decide) (by decide)

/-- C3. For each of the 12 canonical keys and each of the 5 scale types with interval
pattern `pattern`, `getScaleNotes` returns as many notes as the pattern has offsets, and
in pattern order the `i`-th note spells pitch class `(keyIndex + pattern[i]) mod 12`: it
denotes that pitch class, and it is the flat equivalent of the table name when the key is
flat-preferred and the table name has one, and the table name itself otherwise (so in the
flat-preferred key F the name A# is not accepted for pitch class 10). The scale of C major
is C, D, E, F, G, A, B, and that of G# minor is Ab, Bb, B, Db, Eb, E, Gb. -/
theorem getScaleNotes_follows_pattern (key scale : String)
    (hkey : key ∈ noteNames) (hscale : scale ∈ scaleTypes) :
    (∃ pattern notes, jsLookup scales (some scale) = some pattern ∧
      getScaleNotes key scale = some notes ∧
      notes.length = pattern.length ∧
      (∀ i offset note, pattern.get? i = some offset → notes.get? i = some note →
        SpellsPitchClass (shouldUseFlats key) ((keyIndexOf key + offset) % 12) note) ∧
      notes.map spelledPitchClass =
        pattern.map fun offset => some ((keyIndexOf key + offset) % 12)) ∧
    ¬ SpellsPitchClass (shouldUseFlats "F") ((keyIndexOf "F" + 5) % 12) (some "A#") ∧
    getScaleNotes "C" "major" =
      some [some "C", some "D", some "E", some "F", some "G", some "A", some "B"] ∧
    getScaleNotes "G#" "minor" =
      some [some "Ab", some "Bb", some "B", some "Db", some "Eb", some "E", some "Gb"] := by
  refine ⟨?_, by decide, by decide, by decide⟩
  obtain ⟨hsome, hpat, hlen, hall⟩ := scale_pitch_table key hkey scale hscale
  obtain ⟨notes, hnotes⟩ := Option.isSome_iff_exists.mp hsome
  obtain ⟨pattern, hpattern⟩ := Option.isSome_iff_exists.mp hpat
  rw [hnotes, hpattern] at hlen hall
  simp only [Option.getD_some] at hlen hall
  have hget : ∀ i offset note, pattern.get? i = some offset → notes.get? i = some note →
      SpellsPitchClass (shouldUseFlats key) ((keyIndexOf key + offset) % 12) note := by
    intro i offset note ho hn
    have hz : (pattern.zip notes).get? i = some (offset, note) := by
      rw [List.get?_eq_getElem?] at ho hn ⊢
      rw [List.getElem?_zip_eq_some]
      exact ⟨ho, hn⟩
    exact hall (offset, note) (List.get?_mem hz)
  refine ⟨pattern, notes, hpattern, hnotes, hlen, hget, ?_⟩
  apply List.ext_get?
  intro i
  rw [List.get?_eq_getElem?, List.get?_eq_getElem?, List.getElem?_map, List.getElem?_map,
    ← List.get?_eq_getElem?, ← List.get?_eq_getElem?]
  by_cases hi : i < notes.length
  · have hi2 : i < pattern.length := by omega
    rw [List.get?_eq_get hi, List.get?_eq_get hi2]
    simp only [Option.map_some']
    have := hget i _ _ (List.get?_eq_get hi2) (List.get?_eq_get hi)
    rw [this.1]
  · rw [List.get?_eq_none.mpr (by omega), List.get?_eq_none.mpr (by omega)]
    rfl

/-- The pattern theorem at the key G# with the minor scale. -/
theorem getScaleNotes_follows_pattern_witness :
    (∃ pattern notes, jsLookup scales (some "minor") = some pattern ∧
      getScaleNotes "G#" "minor" = some notes ∧
      notes.length = pattern.length ∧
      (∀ i offset note, pattern.get? i = some offset → notes.get? i = some note →
        SpellsPitchClass (shouldUseFlats "G#") ((keyIndexOf "G#" + offset) % 12) note) ∧
      notes.map spelledPitchClass =
        pattern.map fun offset => some ((keyIndexOf "G#" + offset) % 12)) ∧
    ¬ SpellsPitchClass (shouldUseFlats "F") ((keyIndexOf "F" + 5) % 12) (some "A#") ∧
    getScaleNotes "C" "major" =
      some [some "C", some "D", some "E", some "F", some "G", some "A", some "B"] ∧
    getScaleNotes "G#" "minor" =
      some [some "Ab", some "Bb", some "B", some "Db", some "Eb", some "E", some "Gb"] :=
  getScaleNotes_follows_pattern "G#" "minor" (by decide) (by decide)

/-! ## Sequence generation -/

theorem generateLoop_length (scaleNotes : List Note) (random : Nat → ℚ) (k i : Nat)
    (acc : List Note) :
    (generateLoop scaleNotes random k i acc).length = acc.length + k := by
  induction k generalizing i acc with
  | zero => simp [generateLoop]
  | succ k ih =>
    simp only [generateLoop]
    rw [ih]
    simp only [List.length_append, List.length_singleton]
    omega

/-! ### Rounding to a double -/

theorem floor_le_self (y : ℚ) : ((Rat.floor y : Int) : ℚ) ≤ y :=
  Rat.le_floor.mp (le_refl _)

theorem roundHalfEven_le (y : ℚ) : ((roundHalfEven y : Int) : ℚ) ≤ y + 1 / 2 := by
  have hf := floor_le_self y
  unfold roundHalfEven
  simp only
  split_ifs with h1 h2 h3
  · linarith
  · push_cast
    linarith
  · linarith
  · push_cast
    linarith

theorem roundHalfEven_nonneg (y : ℚ) (hy : 0 ≤ y) : 0 ≤ roundHalfEven y := by
  have hf : 0 ≤ Rat.floor y := Rat.le_floor.mpr (by simpa using hy)
  unfold roundHalfEven
  simp only
  split_ifs <;> omega

theorem two_zpow_pos (k : Int) : (0 : ℚ) < (2 : ℚ) ^ k := zpow_pos (by norm_num) k

theorem roundDouble_nonneg (x : ℚ) (hx : 0 ≤ x) : 0 ≤ roundDouble x := by
  unfold roundDouble
  have h := roundHalfEven_nonneg (x / (2 : ℚ) ^ quantumExp x)
    (div_nonneg hx (two_zpow_pos _).le)
  have h2 : (0 : ℚ) ≤ (roundHalfEven (x / (2 : ℚ) ^ quantumExp x) : ℚ) := by exact_mod_cast h
  exact mul_nonneg h2 (two_zpow_pos _).le

theorem roundDouble_le (x : ℚ) : roundDouble x ≤ x + (2 : ℚ) ^ quantumExp x / 2 := by
  unfold roundDouble
  have hq := two_zpow_pos (quantumExp x)
  have h := roundHalfEven_le (x / (2 : ℚ) ^ quantumExp x)
  calc (roundHalfEven (x / (2 : ℚ) ^ quantumExp x) : ℚ) * (2 : ℚ) ^ quantumExp x
      ≤ (x / (2 : ℚ) ^ quantumExp x + 1 / 2) * (2 : ℚ) ^ quantumExp x :=
        mul_le_mul_of_nonneg_right h hq.le
    _ = x + (2 : ℚ) ^ quantumExp x / 2 := by
        field_simp
        ring

theorem two_zpow_log_le (x : ℚ) (hx : 0 < x) : (2 : ℚ) ^ Int.log 2 x ≤ x := by
  have h := Int.zpow_log_le_self (R := ℚ) (b := 2) (by norm_num) hx
  simpa using h

theorem lt_two_zpow_log_succ (x : ℚ) : x < (2 : ℚ) ^ (Int.log 2 x + 1) := by
  have h := Int.lt_zpow_succ_log_self (R := ℚ) (b := 2) (by norm_num) x
  simpa using h

/-- The spacing of the doubles around a positive `x` is at most `x * 2^-52`, or it is the
spacing of the subnormal numbers. -/
theorem quantum_le (x : ℚ) (hx : 0 < x) :
    (2 : ℚ) ^ quantumExp x ≤ x * (2 : ℚ) ^ (-52 : Int) ∨ quantumExp x = -1074 := by
  unfold quantumExp
  rw [abs_of_pos hx]
  rcases le_total (Int.log 2 x - 52) (-1074) with h | h
  · right
    exact max_eq_right h
  · left
    rw [max_eq_left h, sub_eq_add_neg, zpow_add₀ (by norm_num : (2 : ℚ) ≠ 0)]
    exact mul_le_mul_of_nonneg_right (two_zpow_log_le x hx) (two_zpow_pos _).le

theorem double_below_one (r : ℚ) (hd : IsDouble r) (h0 : 0 ≤ r) (h1 : r < 1) :
    r ≤ 1 - (2 : ℚ) ^ (-53 : Int) := by
  rcases eq_or_lt_of_le h0 with h | hpos
  · rw [← h]
    have : (2 : ℚ) ^ (-53 : Int) ≤ 1 := zpow_le_one_of_nonpos₀ (by norm_num) (by norm_num)
    linarith
  · have hlo := two_zpow_log_le r hpos
    have hhi := lt_two_zpow_log_succ r
    have he : Int.log 2 r < 0 := by
      have : (2 : ℚ) ^ Int.log 2 r < (2 : ℚ) ^ (0 : Int) := by
        rw [zpow_zero]
        exact lt_of_le_of_lt hlo h1
      exact (zpow_lt_zpow_iff_right₀ (by norm_num : (1 : ℚ) < 2)).mp this
    rcases lt_or_ge (Int.log 2 r) (-1) with h2 | h2
    · have h3 : (2 : ℚ) ^ (Int.log 2 r + 1) ≤ (2 : ℚ) ^ (-1 : Int) :=
        zpow_le_zpow_right₀ (by norm_num) (by omega)
      have h4 : (2 : ℚ) ^ (-53 : Int) ≤ (2 : ℚ) ^ (-1 : Int) :=
        zpow_le_zpow_right₀ (by norm_num) (by norm_num)
      have h5 : (2 : ℚ) ^ (-1 : Int) = 1 / 2 := by norm_num
      rw [h5] at h3 h4
      generalize (2 : ℚ) ^ (-53 : Int) = P at h4 ⊢
      generalize (2 : ℚ) ^ (Int.log 2 r + 1) = U at h3 hhi
      linarith
    · have hlog : Int.log 2 r = -1 := by omega
      have hk : quantumExp r = -53 := by
        unfold quantumExp
        rw [abs_of_pos hpos, hlog]
        rfl
      have hr : (roundHalfEven (r / (2 : ℚ) ^ (-53 : Int)) : ℚ) * (2 : ℚ) ^ (-53 : Int) = r := by
        have := hd
        unfold IsDouble roundDouble at this
        rwa [hk] at this
      have hq := two_zpow_pos (-53)
      have hinv : (2 : ℚ) ^ (-53 : Int) * (2 : ℚ) ^ (53 : Int) = 1 := by
        rw [← zpow_add₀ (by norm_num : (2 : ℚ) ≠ 0)]
        norm_num
      set n := roundHalfEven (r / (2 : ℚ) ^ (-53 : Int)) with hn
      have hlt : (n : ℚ) < (2 : ℚ) ^ (53 : Int) := by
        by_contra hcon
        push_neg at hcon
        have : (2 : ℚ) ^ (53 : Int) * (2 : ℚ) ^ (-53 : Int) ≤ (n : ℚ) * (2 : ℚ) ^ (-53 : Int) :=
          mul_le_mul_of_nonneg_right hcon hq.le
        rw [mul_comm, hinv, hr] at this
        linarith
      have hlt2 : n < 2 ^ 53 := by
        have h53 : (2 : ℚ) ^ (53 : Int) = ((2 ^ 53 : Int) : ℚ) := by norm_num
        rw [h53] at hlt
        exact_mod_cast hlt
      have hle : (n : ℚ) ≤ (2 : ℚ) ^ (53 : Int) - 1 := by
        have h53 : (2 : ℚ) ^ (53 : Int) = ((2 ^ 53 : Int) : ℚ) := by norm_num
        rw [h53]
        have : n ≤ 2 ^ 53 - 1 := by omega
        exact_mod_cast this
      calc r = (n : ℚ) * (2 : ℚ) ^ (-53 : Int) := hr.symm
        _ ≤ ((2 : ℚ) ^ (53 : Int) - 1) * (2 : ℚ) ^ (-53 : Int) :=
            mul_le_mul_of_nonneg_right hle hq.le
        _ = 1 - (2 : ℚ) ^ (-53 : Int) := by
            rw [sub_mul, mul_comm, hinv, one_mul]

theorem below_of_relative_error (X L P R : ℚ) (hP : 0 < P) (hL : 1 ≤ L)
    (hX : X ≤ (1 - P) * L) (hR : R ≤ X + X * P) : R < L := by
  have h1 : X + X * P = X * (1 + P) := by ring
  have h2 : X * (1 + P) ≤ (1 - P) * L * (1 + P) :=
    mul_le_mul_of_nonneg_right hX (by linarith)
  have h3 : (1 - P) * L * (1 + P) = L - L * (P * P) := by ring
  have h4 : 0 < L * (P * P) := by positivity
  linarith

theorem below_of_absolute_error (X L P R D : ℚ) (hL : 1 ≤ L)
    (hX : X ≤ (1 - P) * L) (hR : R ≤ X + D) (hD : D < P) (hP : 0 < P) : R < L := by
  have h1 : (1 - P) * L = L - P * L := by ring
  have h2 : P * 1 ≤ P * L := mul_le_mul_of_nonneg_left hL hP.le
  linarith

/-- The rounded product of a double in the unit interval and a positive length stays below
the length. -/
theorem roundDouble_mul_lt (r : ℚ) (len : Nat) (hd : IsDouble r) (h0 : 0 ≤ r) (h1 : r < 1)
    (hlen : 0 < len) :
    0 ≤ roundDouble (r * (len : ℚ)) ∧ roundDouble (r * (len : ℚ)) < (len : ℚ) := by
  have hl1 : (1 : ℚ) ≤ (len : ℚ) := by exact_mod_cast hlen
  have hx0 : 0 ≤ r * (len : ℚ) := mul_nonneg h0 (by linarith)
  refine ⟨roundDouble_nonneg _ hx0, ?_⟩
  have hr := double_below_one r hd h0 h1
  have hup := roundDouble_le (r * (len : ℚ))
  have hx : r * (len : ℚ) ≤ (1 - (2 : ℚ) ^ (-53 : Int)) * (len : ℚ) :=
    mul_le_mul_of_nonneg_right hr (by linarith)
  have hp53 := two_zpow_pos (-53)
  rcases eq_or_lt_of_le hx0 with hz | hpos
  · rw [← hz]
    have : roundDouble 0 = 0 := by
      unfold roundDouble
      simp [roundHalfEven, Rat.floor]
    rw [this]
    linarith
  · rcases quantum_le _ hpos with hq | hq
    · have e1 : (2 : ℚ) ^ (-52 : Int) = (2 : ℚ) ^ (-53 : Int) * 2 := by
        rw [show (-52 : Int) = -53 + 1 by norm_num, zpow_add₀ (by norm_num : (2 : ℚ) ≠ 0),
          zpow_one]
      rw [e1] at hq
      apply below_of_relative_error (r * (len : ℚ)) (len : ℚ) ((2 : ℚ) ^ (-53 : Int)) _ hp53 hl1
        hx _
      have : (2 : ℚ) ^ quantumExp (r * (len : ℚ)) / 2 ≤
          r * (len : ℚ) * (2 : ℚ) ^ (-53 : Int) := by
        have e2 : r * (len : ℚ) * ((2 : ℚ) ^ (-53 : Int) * 2) =
            r * (len : ℚ) * (2 : ℚ) ^ (-53 : Int) * 2 := by ring
        rw [e2] at hq
        generalize (2 : ℚ) ^ quantumExp (r * (len : ℚ)) = Q at hq ⊢
        generalize r * (len : ℚ) * (2 : ℚ) ^ (-53 : Int) = Y at hq ⊢
        linarith
      generalize (2 : ℚ) ^ quantumExp (r * (len : ℚ)) = Q at this hup ⊢
      generalize hY : r * (len : ℚ) * (2 : ℚ) ^ (-53 : Int) = Y at this ⊢
      generalize r * (len : ℚ) = X at hup ⊢
      linarith
    · rw [hq] at hup
      have h6 : (2 : ℚ) ^ (-1074 : Int) / 2 < (2 : ℚ) ^ (-53 : Int) := by
        have h7 : (2 : ℚ) ^ (-1074 : Int) < (2 : ℚ) ^ (-53 : Int) :=
          zpow_lt_zpow_right₀ (by norm_num) (by norm_num)
        have h8 := two_zpow_pos (-1074)
        linarith
      exact below_of_absolute_error (r * (len : ℚ)) (len : ℚ) ((2 : ℚ) ^ (-53 : Int)) _ _ hl1
        hx hup h6 hp53

/-- The rounding reproduces known doubles: 0.1 and 0.8 round to their binary64 values, a
value halfway between two doubles goes to the even one, and a product that is just below
2 as a rational is 2 as a double. -/
theorem roundDouble_examples :
    roundDouble (1 / 10) = 3602879701896397 / 2 ^ 55 ∧
    roundDouble (4 / 5) = 3602879701896397 / 2 ^ 52 ∧
    roundDouble (1 + 1 / 2 ^ 53) = 1 ∧
    roundDouble (1 + 3 / 2 ^ 53) = 1 + 4 / 2 ^ 53 ∧
    roundDouble (2573485501354569 / 2 ^ 53 * 7) = 2 ∧
    Rat.floor (2573485501354569 / 2 ^ 53 * 7 : ℚ) = 1 ∧
    IsDouble (2573485501354569 / 2 ^ 53) ∧
    ¬ IsDouble (1 / 10) := by
  refine ⟨by decide!, by decide!, by decide!, by decide!, by decide!, by decide!, by decide!,
    by decide!⟩

/-- For a draw that is a double in `[0, 1)` the index `Math.floor(r * length)` is an index
of the array. -/
theorem floor_draw_in_bounds (r : ℚ) (len : Nat) (hd : IsDouble r) (h0 : 0 ≤ r) (h1 : r < 1)
    (hlen : 0 < len) :
    0 ≤ Rat.floor (roundDouble (r * (len : ℚ))) ∧
      Rat.floor (roundDouble (r * (len : ℚ))) < (len : Int) := by
  obtain ⟨hlo, hhi⟩ := roundDouble_mul_lt r len hd h0 h1 hlen
  constructor
  · apply Rat.le_floor.mpr
    simpa using hlo
  · by_contra hcon
    have hle : (len : Int) ≤ Rat.floor (roundDouble (r * (len : ℚ))) := by omega
    have h2 : ((len : Int) : ℚ) ≤ roundDouble (r * (len : ℚ)) := Rat.le_floor.mp hle
    simp only [Int.cast_natCast] at h2
    exact absurd h2 (not_le.mpr hhi)

theorem randomNote_mem (scaleNotes : List Note) (r : ℚ) (hd : IsDouble r) (h0 : 0 ≤ r)
    (h1 : r < 1) (hne : scaleNotes ≠ []) :
    (jsIndex scaleNotes (Rat.floor (roundDouble (r * (scaleNotes.length : ℚ))))).join ∈
      scaleNotes := by
  have hlen : 0 < scaleNotes.length := List.length_pos.mpr hne
  obtain ⟨hlo, hhi⟩ := floor_draw_in_bounds r scaleNotes.length hd h0 h1 hlen
  have hidx : (Rat.floor (roundDouble (r * (scaleNotes.length : ℚ)))).toNat <
      scaleNotes.length := by omega
  unfold jsIndex
  rw [if_neg (by omega), List.get?_eq_get hidx]
  simp only [Option.join]
  exact List.get_mem _ _ _

theorem generateLoop_mem (scaleNotes : List Note) (random : Nat → ℚ)
    (hrand : ∀ i, IsDouble (random i) ∧ 0 ≤ random i ∧ random i < 1) (hne : scaleNotes ≠ [])
    (k i : Nat)
    (acc : List Note) :
    ∀ note ∈ generateLoop scaleNotes random k i acc, note ∈ acc ∨ note ∈ scaleNotes := by
  induction k generalizing i acc with
  | zero =>
    intro note hn
    exact Or.inl (by simpa [generateLoop] using hn)
  | succ k ih =>
    intro note hn
    simp only [generateLoop] at hn
    rcases ih _ _ note hn with h | h
    · rcases List.mem_append.mp h with h | h
      · exact Or.inl h
      · right
        rw [List.mem_singleton.mp h]
        exact randomNote_mem scaleNotes (random i) (hrand i).1 (hrand i).2.1 (hrand i).2.2 hne
    · exact Or.inr h

theorem getScaleNotes_some_of_scale (key scale : String) (hscale : scale ∈ scaleTypes) :
    ∃ notes, getScaleNotes key scale = some notes ∧
      notes.length = ((jsLookup scales (some scale)).getD []).length ∧ notes ≠ [] := by
  have h : (jsLookup scales (some scale)).isSome = true ∧
      ((jsLookup scales (some scale)).getD []) ≠ [] := by
    revert scale
    decide
  obtain ⟨pattern, hp⟩ := Option.isSome_iff_exists.mp h.1
  have hne := h.2
  rw [hp] at hne ⊢
  simp only [Option.getD_some] at hne ⊢
  refine ⟨_, by simp only [getScaleNotes, hp]; rfl, by simp, ?_⟩
  intro hnil
  apply hne
  simpa using hnil

theorem generateNewSequence_generated (s : Session) (random : Nat → ℚ) (scaleNotes : List Note)
    (h : getScaleNotes s.keySelect s.scaleSelect = some scaleNotes) :
    (generateNewSequence s random).generatedSequence =
      generateLoop scaleNotes random (loopCount s.sequenceLength) 0 [] := by
  simp only [generateNewSequence, h, setTimeout]

set_option maxRecDepth 100000 in
theorem scale_notes_defined : ∀ key ∈ noteNames, ∀ scale ∈ scaleTypes,
    ∀ note ∈ (getScaleNotes key scale).getD [], note.isSome = true := by
  decide

/-- C4. With a canonical key and a scale type selected, a positive integer `n` as the
requested length and every draw a double in `[0, 1)`, every index
`Math.floor(r * length)`, computed in double arithmetic as the code does, is an index of
the scale, and `generateNewSequence` leaves a generated sequence of exactly `n` elements,
each of them a defined note that occurs in `getScaleNotes(key, scale)`. -/
theorem generateNewSequence_length_and_members (s : Session) (random : Nat → ℚ) (n : Int)
    (hkey : s.keySelect ∈ noteNames) (hscale : s.scaleSelect ∈ scaleTypes)
    (hlen : s.sequenceLength = some n) (hn : 0 < n)
    (hrand : ∀ i, IsDouble (random i) ∧ 0 ≤ random i ∧ random i < 1) :
    ∃ scaleNotes, getScaleNotes s.keySelect s.scaleSelect = some scaleNotes ∧
      (∀ i, 0 ≤ Rat.floor (roundDouble (random i * (scaleNotes.length : ℚ))) ∧
        Rat.floor (roundDouble (random i * (scaleNotes.length : ℚ))) <
          (scaleNotes.length : Int)) ∧
      ((generateNewSequence s random).generatedSequence.length : Int) = n ∧
      ∀ note ∈ (generateNewSequence s random).generatedSequence,
        note ∈ scaleNotes ∧ note ≠ none := by
  obtain ⟨scaleNotes, hnotes, _, hne⟩ := getScaleNotes_some_of_scale s.keySelect _ hscale
  have hdef := scale_notes_defined s.keySelect hkey s.scaleSelect hscale
  rw [hnotes] at hdef
  simp only [Option.getD_some] at hdef
  refine ⟨scaleNotes, hnotes, ?_, ?_, ?_⟩
  · intro i
    exact floor_draw_in_bounds (random i) scaleNotes.length (hrand i).1 (hrand i).2.1
      (hrand i).2.2 (List.length_pos.mpr hne)
  · rw [generateNewSequence_generated s random scaleNotes hnotes, generateLoop_length, hlen]
    simp only [loopCount, List.length_nil, Nat.zero_add]
    omega
  · intro note hmem
    rw [generateNewSequence_generated s random scaleNotes hnotes] at hmem
    rcases generateLoop_mem scaleNotes random hrand hne _ _ _ note hmem with h | h
    · cases h
    · refine ⟨h, ?_⟩
      intro hnone
      have := hdef note h
      rw [hnone] at this
      cases this

/-- C5, as the code behaves. `generateNewSequence` neither rejects nor clamps the requested
length: with a scale type selected, the generated sequence has `n` elements when the length
is an integer `n ≥ 0` and none when it is negative or `NaN`. So the generated sequence is
non-empty exactly when the requested length is a positive integer. -/
theorem generateNewSequence_length_unchecked (s : Session) (random : Nat → ℚ)
    (hscale : s.scaleSelect ∈ scaleTypes) :
    (generateNewSequence s random).generatedSequence.length = loopCount s.sequenceLength ∧
    ((generateNewSequence s random).generatedSequence ≠ [] ↔
      ∃ n : Int, s.sequenceLength = some n ∧ 0 < n) := by
  obtain ⟨scaleNotes, hnotes, _, _⟩ := getScaleNotes_some_of_scale s.keySelect _ hscale
  have hl : (generateNewSequence s random).generatedSequence.length =
      loopCount s.sequenceLength := by
    rw [generateNewSequence_generated s random scaleNotes hnotes, generateLoop_length]
    simp
  refine ⟨hl, ?_⟩
  rw [← List.length_pos, hl]
  cases hs : s.sequenceLength with
  | none => simp [loopCount]
  | some n =>
    simp only [loopCount, Option.some.injEq, exists_eq_left']
    omega

/-- The generation theorem on a fresh session: C major, three notes, and every draw the
double 2573485501354569 / 2^53, whose product with 7 rounds up to 2. -/
theorem generateNewSequence_length_and_members_witness :
    ∃ scaleNotes,
      getScaleNotes (initApp demoPage).keySelect (initApp demoPage).scaleSelect =
        some scaleNotes ∧
      (∀ i, 0 ≤ Rat.floor (roundDouble
          ((fun _ : Nat => (2573485501354569 / 2 ^ 53 : ℚ)) i * (scaleNotes.length : ℚ))) ∧
        Rat.floor (roundDouble
          ((fun _ : Nat => (2573485501354569 / 2 ^ 53 : ℚ)) i * (scaleNotes.length : ℚ))) <
            (scaleNotes.length : Int)) ∧
      ((generateNewSequence (initApp demoPage)
        (fun _ => 2573485501354569 / 2 ^ 53)).generatedSequence.length : Int) = 3 ∧
      ∀ note ∈ (generateNewSequence (initApp demoPage)
          (fun _ => 2573485501354569 / 2 ^ 53)).generatedSequence,
        note ∈ scaleNotes ∧ note ≠ none :=
  generateNewSequence_length_and_members (initApp demoPage)
    (fun _ => 2573485501354569 / 2 ^ 53) 3
    (by decide) (by decide) rfl (by decide)
    (fun _ =>
      ⟨(by decide! : IsDouble (2573485501354569 / 2 ^ 53)), by norm_num, by norm_num⟩)

/-- C5 fails as stated: with C major selected and the requested length 0, then -2, then
`NaN`, the generate step runs to its end (the play button is enabled and the automatic
playback is scheduled) and leaves an empty generated sequence. -/
theorem generateNewSequence_empty_on_bad_length :
    (step (step (initApp demoPage) (Event.inputLength (some 0)))
        (Event.generate fun _ => 0)).generatedSequence = [] ∧
    (step (step (initApp demoPage) (Event.inputLength (some 0)))
        (Event.generate fun _ => 0)).playDisabled = false ∧
    (step (step (initApp demoPage) (Event.inputLength (some 0)))
        (Event.generate fun _ => 0)).timers = [⟨500, Callback.autoPlay⟩] ∧
    (step (step (initApp demoPage) (Event.inputLength (some (-2))))
        (Event.generate fun _ => 0)).generatedSequence = [] ∧
    (step (step (initApp demoPage) (Event.inputLength none))
        (Event.generate fun _ => 0)).generatedSequence = [] := by
  decide

/-- The length theorem on a fresh session with C major selected. -/
theorem generateNewSequence_length_unchecked_witness :
    (generateNewSequence (initApp demoPage) (fun _ => 0)).generatedSequence.length =
      loopCount (initApp demoPage).sequenceLength ∧
    ((generateNewSequence (initApp demoPage) (fun _ => 0)).generatedSequence ≠ [] ↔
      ∃ n : Int, (initApp demoPage).sequenceLength = some n ∧ 0 < n) :=
  generateNewSequence_length_unchecked (initApp demoPage) (fun _ => 0) (by decide)

/-! ## Frame lemmas for the score -/

theorem playNote_score (s : Session) (note : Note) (d : ℚ) :
    (playNote s note d).score = s.score := by
  cases note <;> rfl

theorem playGeneratedSequence_score (s : Session) :
    (playGeneratedSequence s).score = s.score := by
  unfold playGeneratedSequence
  split_ifs <;> rfl

theorem updateUserButtons_score (s : Session) : (updateUserButtons s).score = s.score := by
  unfold updateUserButtons
  split <;> rfl

theorem generateNewSequence_score (s : Session) (random : Nat → ℚ) :
    (generateNewSequence s random).score = s.score := by
  unfold generateNewSequence
  simp only
  split <;> rfl

theorem fire_score (s : Session) (cb : Callback) : (fire s cb).score = s.score := by
  cases cb with
  | autoPlay => exact playGeneratedSequence_score s
  | noteOn note index tempoMs =>
    simp only [fire]
    split_ifs
    · simp only [setTimeout, playNote_score]
    · exact playNote_score _ _ _
  | finish => rfl

theorem updateFeedback_score (s : Session) (isCorrect : Bool) :
    (updateFeedback s isCorrect).score = if isCorrect then s.score + 10 else s.score := by
  cases isCorrect <;> rfl

/-- The only event that writes the score is a submit of a matching attempt, which adds 10. -/
theorem step_score (s : Session) (e : Event) :
    (step s e).score = s.score ∨
      (e = Event.submit ∧ checkSequence s.userSequence s.generatedSequence = true ∧
        (step s e).score = s.score + 10) := by
  cases e with
  | selectKey key =>
    left
    simp only [step]
    split_ifs
    · rw [updateUserButtons_score]
    · rfl
  | selectScale scale =>
    left
    simp only [step]
    rw [updateUserButtons_score]
  | inputLength length => exact Or.inl rfl
  | selectTempo tempo => exact Or.inl rfl
  | generate random => exact Or.inl (generateNewSequence_score s random)
  | play =>
    left
    simp only [step]
    split_ifs
    · rfl
    · exact playGeneratedSequence_score s
  | replay =>
    left
    simp only [step]
    split_ifs
    · rfl
    · exact playGeneratedSequence_score s
  | noteClick i =>
    left
    simp only [step]
    split
    · rfl
    · simp only [noteButtonClick, playNote_score]
  | submit =>
    simp only [step]
    by_cases hd : s.submitDisabled = true
    · left
      rw [if_pos hd]
    · rw [if_neg hd]
      simp only [submitClick, updateFeedback_score]
      cases hc : checkSequence s.userSequence s.generatedSequence
      · left
        simp
      · right
        simp
  | clear =>
    left
    simp only [step]
    split_ifs <;> rfl
  | timer =>
    left
    simp only [step]
    split
    · rfl
    · rw [fire_score]
  | wait ms =>
    left
    simp only [step]
    split <;> rfl

theorem run_append_event (s : Session) (events : List Event) (e : Event) :
    run s (events ++ [e]) = step (run s events) e := by
  simp [run]

theorem run_score_le (s : Session) (events : List Event) : s.score ≤ (run s events).score := by
  induction events generalizing s with
  | nil => exact Nat.le_refl _
  | cons e rest ih =>
    have h1 : s.score ≤ (step s e).score := by
      rcases step_score s e with h | ⟨_, _, h⟩ <;> omega
    exact Nat.le_trans h1 (ih (step s e))

theorem run_score_dvd (s : Session) (events : List Event) (h : 10 ∣ s.score) :
    10 ∣ (run s events).score := by
  induction events generalizing s with
  | nil => exact h
  | cons e rest ih =>
    apply ih (step s e)
    rcases step_score s e with h1 | ⟨_, _, h1⟩ <;> omega

theorem initApp_score (page : Page) : (initApp page).score = 0 := by
  unfold initApp
  rw [updateUserButtons_score]

/-- C9. The score starts at 0. `updateFeedback(true)` adds exactly 10 and
`updateFeedback(false)` leaves the score unchanged. No event changes the score except a
submit that reaches `updateFeedback(true)`. Hence over every sequence of events the
score never decreases, and from the initial state it is always a multiple of 10 (it
is a natural number, so it is never negative and is never reset below its value). -/
theorem score_grows_by_tens :
    (∀ page, (initApp page).score = 0) ∧
    (∀ s, (updateFeedback s true).score = s.score + 10 ∧
      (updateFeedback s false).score = s.score) ∧
    (∀ s e, (step s e).score = s.score ∨
      (e = Event.submit ∧ checkSequence s.userSequence s.generatedSequence = true ∧
        (step s e).score = s.score + 10)) ∧
    (∀ s events, s.score ≤ (run s events).score) ∧
    (∀ page events, 10 ∣ (run (initApp page) events).score) := by
  refine ⟨initApp_score, fun s => ⟨rfl, rfl⟩, step_score, run_score_le, ?_⟩
  intro page events
  apply run_score_dvd
  rw [initApp_score]
  exact Nat.dvd_zero 10

/-! ## Playback guard -/

/-- C8. In a state where `isPlaying` is true or the generated sequence is empty,
`playGeneratedSequence` returns the state it was given: no timer is added, no sound is
produced, and `isPlaying`, the generated sequence, the attempt, the score and the button
flags are unchanged. The same holds for the three ways of reaching it: a click on the
play button, a click on the replay button, and the automatic playback timer. -/
theorem playGeneratedSequence_noop (s : Session)
    (h : s.isPlaying = true ∨ s.generatedSequence = []) :
    playGeneratedSequence s = s ∧
    step s Event.play = s ∧
    step s Event.replay = s ∧
    fire s Callback.autoPlay = s := by
  have hp : playGeneratedSequence s = s := by
    unfold playGeneratedSequence
    rcases h with h | h
    · simp [h]
    · simp [h]
  refine ⟨hp, ?_, ?_, hp⟩
  · simp only [step, hp, ite_self]
  · simp only [step, hp, ite_self]

/-- The guard theorem on a fresh session, whose generated sequence is empty. -/
theorem playGeneratedSequence_noop_witness :
    playGeneratedSequence (initApp demoPage) = initApp demoPage ∧
    step (initApp demoPage) Event.play = initApp demoPage ∧
    step (initApp demoPage) Event.replay = initApp demoPage ∧
    fire (initApp demoPage) Callback.autoPlay = initApp demoPage :=
  playGeneratedSequence_noop (initApp demoPage) (Or.inr (by decide))

/-! ## Playback interleaved with a new generation -/

theorem popTimer_mem (ts : List Timer) (t : Timer) (rest : List Timer)
    (h : popTimer ts = some (t, rest)) : t ∈ ts ∧ ∀ u ∈ rest, u ∈ ts := by
  induction ts generalizing t rest with
  | nil => simp [popTimer] at h
  | cons a ts ih =>
    simp only [popTimer] at h
    cases hp : popTimer ts with
    | none =>
      rw [hp] at h
      simp only [Option.some.injEq, Prod.mk.injEq] at h
      obtain ⟨rfl, rfl⟩ := h
      exact ⟨List.mem_cons_self _ _, fun u hu => by cases hu⟩
    | some p =>
      obtain ⟨u, rest2⟩ := p
      rw [hp] at h
      obtain ⟨hu, hrest⟩ := ih u rest2 hp
      simp only at h
      split_ifs at h
      · simp only [Option.some.injEq, Prod.mk.injEq] at h
        obtain ⟨rfl, rfl⟩ := h
        refine ⟨List.mem_cons_of_mem _ hu, ?_⟩
        intro v hv
        rcases List.mem_cons.mp hv with rfl | hv
        · exact List.mem_cons_self _ _
        · exact List.mem_cons_of_mem _ (hrest v hv)
      · simp only [Option.some.injEq, Prod.mk.injEq] at h
        obtain ⟨rfl, rfl⟩ := h
        exact ⟨List.mem_cons_self _ _, fun v hv => List.mem_cons_of_mem _ hv⟩

theorem playGeneratedSequence_of_playing (s : Session) (h : s.isPlaying = true) :
    playGeneratedSequence s = s := by
  unfold playGeneratedSequence
  simp [h]

theorem step_stuck (s : Session) (e : Event) (h : Stuck s) : Stuck (step s e) := by
  obtain ⟨hp, ht⟩ := h
  cases e with
  | selectKey key =>
    simp only [step]
    split_ifs
    · unfold updateUserButtons
      split <;> exact ⟨hp, ht⟩
    · exact ⟨hp, ht⟩
  | selectScale scale =>
    simp only [step]
    unfold updateUserButtons
    split <;> exact ⟨hp, ht⟩
  | inputLength length => exact ⟨hp, ht⟩
  | selectTempo tempo => exact ⟨hp, ht⟩
  | generate random =>
    simp only [step, generateNewSequence]
    split
    · exact ⟨hp, ht⟩
    · refine ⟨hp, ?_⟩
      intro t hmem
      simp only [setTimeout, List.mem_append, List.mem_singleton] at hmem
      rcases hmem with hmem | rfl
      · exact ht t hmem
      · rfl
  | play =>
    simp only [step, playGeneratedSequence_of_playing s hp, ite_self]
    exact ⟨hp, ht⟩
  | replay =>
    simp only [step, playGeneratedSequence_of_playing s hp, ite_self]
    exact ⟨hp, ht⟩
  | noteClick i =>
    simp only [step]
    split
    · exact ⟨hp, ht⟩
    · rename_i note _
      cases note <;> exact ⟨hp, ht⟩
  | submit =>
    simp only [step]
    split_ifs
    · exact ⟨hp, ht⟩
    · simp only [submitClick, updateFeedback]
      split_ifs <;> exact ⟨hp, ht⟩
  | clear =>
    simp only [step]
    split_ifs <;> exact ⟨hp, ht⟩
  | timer =>
    simp only [step]
    split
    · exact ⟨hp, ht⟩
    · rename_i t rest hpop
      obtain ⟨hmem, hrest⟩ := popTimer_mem _ _ _ hpop
      rw [ht t hmem]
      simp only [fire]
      rw [playGeneratedSequence_of_playing _ (by exact hp)]
      exact ⟨hp, fun u hu => ht u (hrest u hu)⟩
  | wait ms =>
    simp only [step]
    split <;> exact ⟨hp, ht⟩

theorem run_stuck (s : Session) (events : List Event) (h : Stuck s) : Stuck (run s events) := by
  induction events generalizing s with
  | nil => exact h
  | cons e rest ih => exact ih (step s e) (step_stuck s e h)

/-- C6 fails on this run. A playback of three notes at 350 ms starts from idle at 500 ms.
After its first note the user generates a sequence of five notes. The closures of the old
playback compare their index with the length of the new sequence, so none of them schedules
the end of the playback: when all three notes have sounded (at 500, 850 and 1200 ms) and
the clock is at 2200 ms, no timer is pending and `isPlaying` is still true. From there no
sequence of events ever makes it false again. -/
theorem playback_stays_playing_after_longer_regenerate :
    (run (initApp demoPage) [Event.generate fun _ => 0]).isPlaying = false ∧
    (run (initApp demoPage) startOfRun).isPlaying = true ∧
    (run (initApp demoPage) startOfRun).now = 500 ∧
    (run (initApp demoPage) startOfRun).timers =
      [⟨500, Callback.noteOn (some "C") 0 350⟩, ⟨850, Callback.noteOn (some "C") 1 350⟩,
       ⟨1200, Callback.noteOn (some "C") 2 350⟩] ∧
    (run (initApp demoPage) regenerateLonger).audio.map (fun x => x.time) = [500, 850, 1200] ∧
    (run (initApp demoPage) regenerateLonger).now = 2200 ∧
    (run (initApp demoPage) regenerateLonger).timers = [] ∧
    (run (initApp demoPage) regenerateLonger).isPlaying = true ∧
    ∀ events, (run (run (initApp demoPage) regenerateLonger) events).isPlaying = true := by
  refine ⟨by decide!, by decide!, by decide!, by decide!, by decide!, by decide!, by decide!,
    by decide!, ?_⟩
  intro events
  have h : Stuck (run (initApp demoPage) regenerateLonger) := by
    refine ⟨by decide!, ?_⟩
    have ht : (run (initApp demoPage) regenerateLonger).timers = [] := by decide!
    rw [ht]
    intro t hmem
    cases hmem
  exact (run_stuck _ events h).1

/-- C7 fails on this run. The first playback (five notes C at 350 ms, from 500 ms) is
declared finished at 1200 ms, because its second note found its index equal to the last
index of the newly generated two-note sequence. At that point `isPlaying` is false while
the fourth and fifth notes of the first playback are still pending. The automatic playback
of the new sequence fires at 1300 ms and starts a second playback beside them, and the
notes of the two playbacks then sound in alternation. -/
theorem second_playback_starts_over_pending_notes :
    (run (initApp demoPage) regenerateShorter).isPlaying = false ∧
    (run (initApp demoPage) regenerateShorter).timers =
      [⟨1550, Callback.noteOn (some "C") 3 350⟩, ⟨1900, Callback.noteOn (some "C") 4 350⟩,
       ⟨1300, Callback.autoPlay⟩] ∧
    (run (initApp demoPage) (regenerateShorter ++ [Event.timer])).isPlaying = true ∧
    (run (initApp demoPage) (regenerateShorter ++ [Event.timer])).timers =
      [⟨1550, Callback.noteOn (some "C") 3 350⟩, ⟨1900, Callback.noteOn (some "C") 4 350⟩,
       ⟨1300, Callback.noteOn (some "F") 0 350⟩, ⟨1650, Callback.noteOn (some "F") 1 350⟩] ∧
    (run (initApp demoPage)
        (regenerateShorter ++ [Event.timer, Event.timer, Event.timer, Event.timer,
          Event.timer])).audio.map (fun x => (x.time, x.fullNote)) =
      [(500, "C4"), (850, "C4"), (1200, "C4"), (1300, "F4"), (1550, "C4"), (1650, "F4"),
       (1900, "C4")] := by
  refine ⟨by decide!, by decide!, by decide!, by decide!, by decide!⟩

/-! ## Schedule of one playback -/

theorem scheduleNotes_length (now tempoMs : Nat) (notes : List Note) (index : Nat) :
    (scheduleNotes now tempoMs notes index).length = notes.length := by
  induction notes generalizing index with
  | nil => rfl
  | cons n rest ih => simp [scheduleNotes, ih]

theorem scheduleNotes_get? (now tempoMs : Nat) (notes : List Note) (index i : Nat) (note : Note)
    (h : notes.get? i = some note) :
    (scheduleNotes now tempoMs notes index).get? i =
      some ⟨now + (index + i) * tempoMs, Callback.noteOn note (index + i) tempoMs⟩ := by
  induction notes generalizing index i with
  | nil => simp at h
  | cons n rest ih =>
    cases i with
    | zero =>
      simp only [List.get?_cons_zero, Option.some.injEq] at h
      subst h
      simp [scheduleNotes]
    | succ i =>
      simp only [List.get?_cons_succ] at h
      simp only [scheduleNotes, List.get?_cons_succ]
      rw [ih (index + 1) i h]
      have : index + 1 + i = index + (i + 1) := by omega
      rw [this]

theorem expectedSounds_length (base tempoMs : Nat) (notes : List String) (index : Nat) :
    (expectedSounds base tempoMs notes index).length = notes.length := by
  induction notes generalizing index with
  | nil => rfl
  | cons n rest ih => simp [expectedSounds, ih]

theorem expectedSounds_get? (base tempoMs : Nat) (notes : List String) (index i : Nat)
    (note : String) (h : notes.get? i = some note) :
    (expectedSounds base tempoMs notes index).get? i =
      some ⟨base + (index + i) * tempoMs, fullNoteOf note, roundDouble (noteDuration tempoMs / 1000)⟩ := by
  induction notes generalizing index i with
  | nil => simp at h
  | cons n rest ih =>
    cases i with
    | zero =>
      simp only [List.get?_cons_zero, Option.some.injEq] at h
      subst h
      simp [expectedSounds]
    | succ i =>
      simp only [List.get?_cons_succ] at h
      simp only [expectedSounds, List.get?_cons_succ]
      rw [ih (index + 1) i h]
      have : index + 1 + i = index + (i + 1) := by omega
      rw [this]

theorem scheduleNotes_due_ge (now tempoMs : Nat) (notes : List Note) (index : Nat) :
    ∀ t ∈ scheduleNotes now tempoMs notes index, now + index * tempoMs ≤ t.due := by
  induction notes generalizing index with
  | nil =>
    intro t ht
    cases ht
  | cons n rest ih =>
    intro t ht
    simp only [scheduleNotes, List.mem_cons] at ht
    rcases ht with rfl | ht
    · exact Nat.le_refl _
    · have h1 := ih (index + 1) t ht
      have h2 : index * tempoMs ≤ (index + 1) * tempoMs :=
        Nat.mul_le_mul_right _ (Nat.le_succ index)
      omega

theorem popTimer_eq_none (ts : List Timer) (h : popTimer ts = none) : ts = [] := by
  cases ts with
  | nil => rfl
  | cons t ts =>
    simp only [popTimer] at h
    split at h
    · cases h
    · split_ifs at h

theorem popTimer_cons_of_le (t : Timer) (ts : List Timer) (h : ∀ u ∈ ts, t.due ≤ u.due) :
    popTimer (t :: ts) = some (t, ts) := by
  simp only [popTimer]
  cases hp : popTimer ts with
  | none => rw [popTimer_eq_none ts hp]
  | some p =>
    obtain ⟨u, rest⟩ := p
    have hu := (popTimer_mem ts u rest hp).1
    have hle := h u hu
    simp only
    rw [if_neg (by omega)]

theorem run_cons (s : Session) (e : Event) (events : List Event) :
    run s (e :: events) = run (step s e) events := rfl

/-- The notes of one playback fire one after the other when nothing else is pending and no
other event intervenes; the last one schedules the end of the playback. -/
theorem run_pending_notes (base tempoMs : Nat) (rest : List String) (index : Nat) (s : Session)
    (hne : rest ≠ [])
    (htimers : s.timers = scheduleNotes base tempoMs (rest.map some) index)
    (hnow : s.now ≤ base + index * tempoMs)
    (hlen : s.generatedSequence.length = index + rest.length) :
    run s (List.replicate rest.length Event.timer) =
      { s with
        now := base + (index + rest.length - 1) * tempoMs
        timers := [⟨base + (index + rest.length) * tempoMs, Callback.finish⟩]
        audio := s.audio ++ expectedSounds base tempoMs rest index } := by
  induction rest generalizing index s with
  | nil => exact absurd rfl hne
  | cons n rest ih =>
    have hdue : ∀ u ∈ scheduleNotes base tempoMs (rest.map some) (index + 1),
        base + index * tempoMs ≤ u.due := by
      intro u hu
      have h1 := scheduleNotes_due_ge base tempoMs _ _ u hu
      have h2 : index * tempoMs ≤ (index + 1) * tempoMs :=
        Nat.mul_le_mul_right _ (Nat.le_succ index)
      omega
    have hpop : popTimer s.timers =
        some (⟨base + index * tempoMs, Callback.noteOn (some n) index tempoMs⟩,
          scheduleNotes base tempoMs (rest.map some) (index + 1)) := by
      rw [htimers]
      exact popTimer_cons_of_le _ _ hdue
    have hmax : max s.now (base + index * tempoMs) = base + index * tempoMs :=
      Nat.max_eq_right hnow
    simp only [List.length_cons, List.replicate_succ, run_cons]
    cases rest with
    | nil =>
      simp only [List.length_nil, List.replicate_zero, run, List.foldl_nil, step, hpop, fire,
        playNote, hmax]
      simp only [List.length_cons, List.length_nil] at hlen
      rw [if_pos (by rw [hlen]; push_cast; omega)]
      simp only [setTimeout, expectedSounds, List.nil_append, Nat.zero_add,
        Nat.add_sub_cancel]
      have : base + index * tempoMs + tempoMs = base + (index + 1) * tempoMs := by
        rw [Nat.succ_mul]
        omega
      rw [this]
      simp [scheduleNotes]
    | cons m rest2 =>
      have hstep : step s Event.timer =
          { s with
            now := base + index * tempoMs
            timers := scheduleNotes base tempoMs ((m :: rest2).map some) (index + 1)
            audio := s.audio ++ [⟨base + index * tempoMs, fullNoteOf n,
              roundDouble (noteDuration tempoMs / 1000)⟩] } := by
        simp only [step, hpop, fire, playNote, hmax]
        simp only [List.length_cons] at hlen
        rw [if_neg (by rw [hlen]; push_cast; omega)]
      rw [hstep]
      have hih := ih (index + 1)
        { s with
          now := base + index * tempoMs
          timers := scheduleNotes base tempoMs ((m :: rest2).map some) (index + 1)
          audio := s.audio ++ [⟨base + index * tempoMs, fullNoteOf n,
            roundDouble (noteDuration tempoMs / 1000)⟩] }
        (by simp) rfl
        (by
          have h2 : index * tempoMs ≤ (index + 1) * tempoMs :=
            Nat.mul_le_mul_right _ (Nat.le_succ index)
          show base + index * tempoMs ≤ base + (index + 1) * tempoMs
          omega)
        (by
          show s.generatedSequence.length = index + 1 + (m :: rest2).length
          rw [hlen]
          simp only [List.length_cons]
          omega)
      simp only [List.length_cons] at hih ⊢
      rw [hih]
      have e1 : index + 1 + (rest2.length + 1) - 1 = index + (rest2.length + 1 + 1) - 1 := by
        omega
      have e2 : index + 1 + (rest2.length + 1) = index + (rest2.length + 1 + 1) := by omega
      simp only [e1, e2, expectedSounds, List.append_assoc, List.singleton_append]

theorem playGeneratedSequence_of_idle (s : Session) (hne : s.generatedSequence ≠ [])
    (hidle : s.isPlaying = false) :
    playGeneratedSequence s =
      { s with
        isPlaying := true
        playDisabled := true
        replayDisabled := true
        timers := s.timers ++
          scheduleNotes s.now (getTempoValue s.tempoSelect) s.generatedSequence 0 } := by
  unfold playGeneratedSequence
  have h0 : s.generatedSequence.length ≠ 0 := by
    intro h
    exact hne (List.length_eq_zero.mp h)
  rw [if_neg h0, hidle]
  simp

/-- The schedule of one playback. Let `playGeneratedSequence` be called in an idle state
whose generated sequence is the non-empty list `notes` of `k` notes, and let `tempoMs` be
the tempo in force. The call sets `isPlaying` and appends exactly `k` timers to the pending
ones, note `i` due at `i * tempoMs` after the call; no sound is produced by the call
itself. Whenever one of these callbacks runs it sounds its note for the double
`tempoMs * 0.8` milliseconds, and it schedules the end of the playback `tempoMs` later
exactly when its index is the last index of the generated sequence as it is at that
moment. When no other timer is pending and no other event intervenes, the `k` timer
firings produce the `k` sounds in sequence order, note `i` at `i * tempoMs`; the one timer
then pending is the end of the playback, due at `k * tempoMs`, and firing it makes the
session idle again at that time. -/
theorem playGeneratedSequence_schedule_alone (s : Session) (notes : List String)
    (hseq : s.generatedSequence = notes.map some) (hne : notes ≠ [])
    (hidle : s.isPlaying = false) :
    (playGeneratedSequence s).isPlaying = true ∧
    (∃ added, (playGeneratedSequence s).timers = s.timers ++ added ∧
      added.length = notes.length ∧
      ∀ i note, notes.get? i = some note →
        added.get? i = some ⟨s.now + i * getTempoValue s.tempoSelect,
          Callback.noteOn (some note) i (getTempoValue s.tempoSelect)⟩) ∧
    (playGeneratedSequence s).audio = s.audio ∧
    (∀ (s1 : Session) (note : String) (i tempoMs : Nat),
      (fire s1 (Callback.noteOn (some note) i tempoMs)).audio =
        s1.audio ++ [⟨s1.now, fullNoteOf note, roundDouble (noteDuration tempoMs / 1000)⟩] ∧
      (i + 1 = s1.generatedSequence.length →
        (fire s1 (Callback.noteOn (some note) i tempoMs)).timers =
          s1.timers ++ [⟨s1.now + tempoMs, Callback.finish⟩]) ∧
      (i + 1 ≠ s1.generatedSequence.length →
        (fire s1 (Callback.noteOn (some note) i tempoMs)).timers = s1.timers)) ∧
    (s.timers = [] →
      ∃ sounds,
        (run (playGeneratedSequence s) (List.replicate notes.length Event.timer)).audio =
          s.audio ++ sounds ∧
        sounds.length = notes.length ∧
        (∀ i note, notes.get? i = some note →
          sounds.get? i = some ⟨s.now + i * getTempoValue s.tempoSelect, fullNoteOf note,
            roundDouble (noteDuration (getTempoValue s.tempoSelect) / 1000)⟩) ∧
        (run (playGeneratedSequence s) (List.replicate notes.length Event.timer)).isPlaying
          = true ∧
        (run (playGeneratedSequence s) (List.replicate notes.length Event.timer)).timers =
          [⟨s.now + notes.length * getTempoValue s.tempoSelect, Callback.finish⟩] ∧
        (run (playGeneratedSequence s)
          (List.replicate notes.length Event.timer ++ [Event.timer])).isPlaying = false ∧
        (run (playGeneratedSequence s)
          (List.replicate notes.length Event.timer ++ [Event.timer])).now =
            s.now + notes.length * getTempoValue s.tempoSelect ∧
        (run (playGeneratedSequence s)
          (List.replicate notes.length Event.timer ++ [Event.timer])).timers = []) := by
  have hne2 : s.generatedSequence ≠ [] := by
    rw [hseq]
    intro h
    exact hne (List.map_eq_nil_iff.mp h)
  have hplay := playGeneratedSequence_of_idle s hne2 hidle
  refine ⟨by rw [hplay], ?_, by rw [hplay], ?_, ?_⟩
  · refine ⟨scheduleNotes s.now (getTempoValue s.tempoSelect) s.generatedSequence 0,
      by rw [hplay], ?_, ?_⟩
    · rw [scheduleNotes_length, hseq, List.length_map]
    · intro i note hi
      have h1 : s.generatedSequence.get? i = some (some note) := by
        rw [hseq, List.get?_eq_getElem?, List.getElem?_map, ← List.get?_eq_getElem?, hi]
        rfl
      rw [scheduleNotes_get? _ _ _ 0 i (some note) h1, Nat.zero_add]
  · intro s1 note i tempoMs
    refine ⟨?_, ?_, ?_⟩
    · simp only [fire, playNote]
      split_ifs <;> rfl
    · intro hlast
      simp only [fire, playNote]
      rw [if_pos (by rw [← hlast]; push_cast; omega)]
      rfl
    · intro hnot
      simp only [fire, playNote]
      rw [if_neg (by omega)]
  · intro hnone
    have htimers : (playGeneratedSequence s).timers =
        scheduleNotes s.now (getTempoValue s.tempoSelect) (notes.map some) 0 := by
      rw [hplay, hnone, hseq]
      rfl
    have hrun := run_pending_notes s.now (getTempoValue s.tempoSelect) notes 0
      (playGeneratedSequence s) hne htimers
      (by rw [hplay]; show s.now ≤ s.now + 0 * _; omega)
      (by rw [hplay]; show s.generatedSequence.length = 0 + notes.length; rw [hseq]; simp)
    have hle : (notes.length - 1) * getTempoValue s.tempoSelect ≤
        notes.length * getTempoValue s.tempoSelect :=
      Nat.mul_le_mul_right _ (Nat.sub_le _ _)
    refine ⟨expectedSounds s.now (getTempoValue s.tempoSelect) notes 0, ?_, ?_, ?_, ?_, ?_,
      ?_, ?_, ?_⟩
    · rw [hrun, hplay]
    · exact expectedSounds_length _ _ _ _
    · intro i note hi
      rw [expectedSounds_get? _ _ _ 0 i note hi, Nat.zero_add]
    · rw [hrun, hplay]
    · rw [hrun]
      simp
    · rw [run_append_event, hrun]
      simp [step, popTimer, fire]
    · rw [run_append_event, hrun]
      simp only [step, popTimer, fire, Nat.zero_add]
      exact Nat.max_eq_right (by omega)
    · rw [run_append_event, hrun]
      simp [step, popTimer, fire]

/-- The durations of the three tempos: the double `tempoMs * 0.8` is exactly 800, 480 and
280 milliseconds. -/
theorem noteDuration_values :
    noteDuration 1000 = 800 ∧ noteDuration 600 = 480 ∧ noteDuration 350 = 280 := by
  refine ⟨by decide!, by decide!, by decide!⟩

/-- C10 fails on this run. In an idle session holding C, C, C at 1550 ms, with no timer
pending, a click on replay sets `isPlaying` and schedules the three notes at 1550, 1900
and 2250 ms, as the schedule says. After the first note the user generates a sequence of
five notes. The three notes still sound at their times, each for 280 ms, but their
closures compare their index with the length of the new sequence, so the end of the
playback, due at 1550 + 3 * 350 = 2600 ms, is never scheduled: at 7250 ms no timer is
pending and `isPlaying` is still true, and no later sequence of events makes it false. -/
theorem replay_schedule_loses_return_to_idle :
    idleAfterPlayback.isPlaying = false ∧
    idleAfterPlayback.replayDisabled = false ∧
    idleAfterPlayback.generatedSequence = [some "C", some "C", some "C"] ∧
    idleAfterPlayback.now = 1550 ∧
    idleAfterPlayback.timers = [] ∧
    getTempoValue idleAfterPlayback.tempoSelect = 350 ∧
    (step idleAfterPlayback Event.replay).isPlaying = true ∧
    (step idleAfterPlayback Event.replay).timers =
      [⟨1550, Callback.noteOn (some "C") 0 350⟩, ⟨1900, Callback.noteOn (some "C") 1 350⟩,
       ⟨2250, Callback.noteOn (some "C") 2 350⟩] ∧
    (run idleAfterPlayback replayThenRegenerate).audio.drop idleAfterPlayback.audio.length =
      [⟨1550, "C4", roundDouble (280 / 1000)⟩, ⟨1900, "C4", roundDouble (280 / 1000)⟩,
       ⟨2250, "C4", roundDouble (280 / 1000)⟩] ∧
    (run idleAfterPlayback replayThenRegenerate).now = 7250 ∧
    (run idleAfterPlayback replayThenRegenerate).timers = [] ∧
    (run idleAfterPlayback replayThenRegenerate).isPlaying = true ∧
    ∀ events, (run (run idleAfterPlayback replayThenRegenerate) events).isPlaying = true := by
  refine ⟨by decide!, by decide!, by decide!, by decide!, by decide!, by decide!, by decide!,
    by decide!, by decide!, by decide!, by decide!, by decide!, ?_⟩
  intro events
  have h : Stuck (run idleAfterPlayback replayThenRegenerate) := by
    refine ⟨by decide!, ?_⟩
    have ht : (run idleAfterPlayback replayThenRegenerate).timers = [] := by decide!
    rw [ht]
    intro t hmem
    cases hmem
  exact (run_stuck _ events h).1

end EarTraining
